import Mathlib

/-!
Shallow embedding of the two algorithmic components of the Remora financial
analysis repository:

* the zigzag turning-point filter `filterRelevantSignals` from
  `src/components/Chart.tsx`, embedded over a model of JavaScript numbers
  (exact rationals extended with `NaN` and signed infinities, so that the
  behaviour on non-finite inputs is captured faithfully), and
* the Renko brick resampler `calculateRenkoBricks` from
  `src/utils/renkoHelper.ts`, embedded over exact rationals.
-/

namespace Remora

/-- Model of a JavaScript number: an exact rational, `NaN`, or a signed
infinity.  Rounding of IEEE doubles is idealized away; the propagation rules
for `NaN` and infinities through the operations the filter uses are kept. -/
inductive JSNum where
  | num (q : ℚ)
  | nan
  | inf
  | ninf
deriving DecidableEq, Repr

/-- JavaScript subtraction `a - b` on the number model. -/
def jsub : JSNum → JSNum → JSNum
  | .nan, _ => .nan
  | _, .nan => .nan
  | .num a, .num b => .num (a - b)
  | .num _, .inf => .ninf
  | .num _, .ninf => .inf
  | .inf, .num _ => .inf
  | .inf, .inf => .nan
  | .inf, .ninf => .inf
  | .ninf, .num _ => .ninf
  | .ninf, .inf => .ninf
  | .ninf, .ninf => .nan

/-- JavaScript `Math.abs` on the number model. -/
def jabs : JSNum → JSNum
  | .num a => .num |a|
  | .nan => .nan
  | .inf => .inf
  | .ninf => .inf

/-- JavaScript comparison `a <= b`: any comparison involving `NaN` is false. -/
def jle : JSNum → JSNum → Bool
  | .nan, _ => false
  | _, .nan => false
  | .num a, .num b => decide (a ≤ b)
  | .num _, .inf => true
  | .num _, .ninf => false
  | .inf, .inf => true
  | .inf, .num _ => false
  | .inf, .ninf => false
  | .ninf, _ => true

/-- JavaScript comparison `a >= b`, i.e. `b <= a` (false whenever `NaN` is
involved). -/
def jge (a b : JSNum) : Bool := jle b a

/-- A filter input item (`Chart.tsx` runs the filter over raw bars and over
Renko bricks alike): an optional raw extrema marker `topoFundo`, plain
`high`/`low` fields, and optional `wickBounds` which, when present, take
precedence over `high`/`low`. -/
structure Candidate where
  topoFundo : Option JSNum
  high : JSNum
  low : JSNum
  wickBounds : Option (JSNum × JSNum)
deriving DecidableEq, Repr

/-- `item.wickBounds ? item.wickBounds[1] : item.high` from `Chart.tsx`. -/
def candHigh (c : Candidate) : JSNum :=
  match c.wickBounds with
  | some wb => wb.2
  | none => c.high

/-- `item.wickBounds ? item.wickBounds[0] : item.low` from `Chart.tsx`. -/
def candLow (c : Candidate) : JSNum :=
  match c.wickBounds with
  | some wb => wb.1
  | none => c.low

/-- Steps 1–2 of the loop body of `filterRelevantSignals`: skip items without
a `topoFundo` marker, otherwise classify as top candidate iff
`|topoFundo - high| <= |topoFundo - low|`, with the anchor price being the
high in the top case and the low otherwise. -/
def classify (c : Candidate) : Option (Bool × JSNum) :=
  match c.topoFundo with
  | none => none
  | some m =>
    let distHigh := jabs (jsub m (candHigh c))
    let distLow := jabs (jsub m (candLow c))
    let isTopCandidate := jle distHigh distLow
    some (isTopCandidate, if isTopCandidate then candHigh c else candLow c)

/-- The single pending slot of the zigzag state machine:
`{ index, type: 'top' | 'bottom', value }` in `Chart.tsx` (`isTop = true`
models `type === 'top'`). -/
structure Pending where
  index : ℕ
  isTop : Bool
  value : JSNum
deriving DecidableEq, Repr

/-- The `forEach` loop of `filterRelevantSignals` together with the final
commit of the pending slot, over an index-annotated item list.  Indices
committed to `validIndices` are emitted in commit order. -/
def zigzagRun : List (ℕ × Candidate) → Option Pending → List ℕ
  | [], pend =>
    match pend with
    | none => []
    | some p => [p.index]
  | (i, c) :: rest, pend =>
    match classify c with
    | none => zigzagRun rest pend
    | some (isTopC, price) =>
      match pend with
      | none => zigzagRun rest (some ⟨i, isTopC, price⟩)
      | some p =>
        if p.isTop then
          if isTopC then
            if jge price p.value then zigzagRun rest (some ⟨i, true, price⟩)
            else zigzagRun rest (some p)
          else
            p.index :: zigzagRun rest (some ⟨i, false, price⟩)
        else
          if !isTopC then
            if jle price p.value then zigzagRun rest (some ⟨i, false, price⟩)
            else zigzagRun rest (some p)
          else
            p.index :: zigzagRun rest (some ⟨i, true, price⟩)

/-- Index annotation, modelling the `(item, i)` pairs `forEach` supplies. -/
def enumFrom {α : Type} : ℕ → List α → List (ℕ × α)
  | _, [] => []
  | n, a :: l => (n, a) :: enumFrom (n + 1) l

/-- `filterRelevantSignals` from `Chart.tsx`: the set of candidate indices
kept by the strict-alternation zigzag filter, in commit order (which is
ascending candidate order). -/
def filterRelevantSignals (items : List Candidate) : List ℕ :=
  zigzagRun (enumFrom 0 items) none

/-- The top/bottom classification the chart recomputes for a kept index
(`areaData` / `renkoData` in `Chart.tsx`): `true` for a top. -/
def classifyBool (c : Candidate) : Bool :=
  match classify c with
  | some (t, _) => t
  | none => false

/-- Classification of the candidate at position `i` of the sequence. -/
def isTopAt (items : List Candidate) (i : ℕ) : Bool :=
  match items[i]? with
  | some c => classifyBool c
  | none => false

theorem enumFrom_mem {α : Type} :
    ∀ (l : List α) (n : ℕ) (q : ℕ × α), q ∈ enumFrom n l →
      ∃ k, q.1 = n + k ∧ l[k]? = some q.2 := by
  intro l
  induction l with
  | nil => intro n q hq; simp [enumFrom] at hq
  | cons a t ih =>
    intro n q hq
    simp only [enumFrom, List.mem_cons] at hq
    rcases hq with hq | hq
    · exact ⟨0, by simp [hq]⟩
    · obtain ⟨k, hk1, hk2⟩ := ih (n + 1) q hq
      exact ⟨k + 1, by omega, by simpa using hk2⟩

theorem enumFrom_le {α : Type} (l : List α) (n : ℕ) (q : ℕ × α)
    (hq : q ∈ enumFrom n l) : n ≤ q.1 := by
  obtain ⟨k, hk, -⟩ := enumFrom_mem l n q hq
  omega

theorem enumFrom_pairwise {α : Type} :
    ∀ (l : List α) (n : ℕ),
      List.Pairwise (fun a b => a.1 < b.1) (enumFrom n l) := by
  intro l
  induction l with
  | nil => intro n; simp [enumFrom]
  | cons a t ih =>
    intro n
    refine List.Pairwise.cons ?_ (ih (n + 1))
    intro q hq
    have := enumFrom_le t (n + 1) q hq
    omega

theorem enumFrom_zero_mem (items : List Candidate) (q : ℕ × Candidate)
    (hq : q ∈ enumFrom 0 items) : items[q.1]? = some q.2 := by
  obtain ⟨k, hk1, hk2⟩ := enumFrom_mem items 0 q hq
  simpa [hk1] using hk2

theorem enumFrom_mem_of_getElem? {α : Type} :
    ∀ (l : List α) (n i : ℕ) (a : α), l[i]? = some a →
      (n + i, a) ∈ enumFrom n l := by
  intro l
  induction l with
  | nil => intro n i a h; simp at h
  | cons b t ih =>
    intro n i a h
    cases i with
    | zero =>
      simp at h
      simp [enumFrom, h]
    | succ i =>
      simp only [List.getElem?_cons_succ] at h
      have := ih (n + 1) i a h
      simp only [enumFrom, List.mem_cons]
      right
      convert this using 2
      omega

theorem classify_isSome (c : Candidate) :
    (classify c).isSome ↔ c.topoFundo.isSome := by
  cases h : c.topoFundo <;> simp [classify, h]

/-- Invariant of the zigzag loop when a pending slot is occupied: the result
is nonempty, its head is at or after the pending index with the pending's
classification, and consecutive kept indices strictly increase with
alternating classifications. -/
theorem zigzagRun_some_spec (items : List Candidate) :
    ∀ (l : List (ℕ × Candidate)) (p : Pending),
      (∀ q ∈ l, items[q.1]? = some q.2) →
      List.Pairwise (fun a b => a.1 < b.1) l →
      (∀ q ∈ l, p.index < q.1) →
      isTopAt items p.index = p.isTop →
      ∃ j, (zigzagRun l (some p)).head? = some j ∧ p.index ≤ j ∧
        isTopAt items j = p.isTop ∧
        List.Chain' (fun a b => a < b ∧ isTopAt items a ≠ isTopAt items b)
          (zigzagRun l (some p)) := by
  intro l
  induction l with
  | nil =>
    intro p _ _ _ hpt
    exact ⟨p.index, by simp [zigzagRun], le_refl _, hpt, by simp [zigzagRun]⟩
  | cons q rest ih =>
    obtain ⟨i, c⟩ := q
    intro p hmem hsort hgt hpt
    have hmem' : ∀ q ∈ rest, items[q.1]? = some q.2 :=
      fun q hq => hmem q (List.mem_cons_of_mem _ hq)
    have hsort' := hsort.of_cons
    have hhead : ∀ q ∈ rest, i < q.1 := fun q hq =>
      (List.pairwise_cons.mp hsort).1 q hq
    have hgt' : ∀ q ∈ rest, p.index < q.1 :=
      fun q hq => hgt q (List.mem_cons_of_mem _ hq)
    have hpidx : p.index < i := hgt (i, c) (List.mem_cons_self _ _)
    cases hcl : classify c with
    | none =>
      have hres : zigzagRun ((i, c) :: rest) (some p) = zigzagRun rest (some p) := by
        simp [zigzagRun, hcl]
      rw [hres]
      exact ih p hmem' hsort' hgt' hpt
    | some tp =>
      obtain ⟨t, price⟩ := tp
      have hit : isTopAt items i = t := by
        have hic : items[i]? = some c := hmem (i, c) (List.mem_cons_self _ _)
        simp [isTopAt, hic, classifyBool, hcl]
      obtain ⟨pidx, pt, pval⟩ := p
      simp only at hpt hgt' hpidx
      cases pt with
      | true =>
        cases t with
        | true =>
          by_cases hgeq : jge price pval = true
          · have hres : zigzagRun ((i, c) :: rest) (some ⟨pidx, true, pval⟩) =
                zigzagRun rest (some ⟨i, true, price⟩) := by
              simp [zigzagRun, hcl, hgeq]
            rw [hres]
            obtain ⟨j, hh, hij, hjt, hch⟩ :=
              ih ⟨i, true, price⟩ hmem' hsort' hhead hit
            exact ⟨j, hh, by have h2 : i ≤ j := hij; show pidx ≤ j; omega, hjt, hch⟩
          · have hres : zigzagRun ((i, c) :: rest) (some ⟨pidx, true, pval⟩) =
                zigzagRun rest (some ⟨pidx, true, pval⟩) := by
              simp [zigzagRun, hcl, hgeq]
            rw [hres]
            exact ih ⟨pidx, true, pval⟩ hmem' hsort' hgt' hpt
        | false =>
          have hres : zigzagRun ((i, c) :: rest) (some ⟨pidx, true, pval⟩) =
              pidx :: zigzagRun rest (some ⟨i, false, price⟩) := by
            simp [zigzagRun, hcl]
          rw [hres]
          obtain ⟨j, hh, hij, hjt, hch⟩ :=
            ih ⟨i, false, price⟩ hmem' hsort' hhead hit
          refine ⟨pidx, rfl, le_refl _, hpt, ?_⟩
          refine List.chain'_cons'.mpr ⟨?_, hch⟩
          intro b hb
          rw [hh] at hb
          cases hb
          have h2 : i ≤ j := hij
          refine ⟨by omega, ?_⟩
          rw [hpt, hjt]
          simp
      | false =>
        cases t with
        | false =>
          by_cases hleq : jle price pval = true
          · have hres : zigzagRun ((i, c) :: rest) (some ⟨pidx, false, pval⟩) =
                zigzagRun rest (some ⟨i, false, price⟩) := by
              simp [zigzagRun, hcl, hleq]
            rw [hres]
            obtain ⟨j, hh, hij, hjt, hch⟩ :=
              ih ⟨i, false, price⟩ hmem' hsort' hhead hit
            exact ⟨j, hh, by have h2 : i ≤ j := hij; show pidx ≤ j; omega, hjt, hch⟩
          · have hres : zigzagRun ((i, c) :: rest) (some ⟨pidx, false, pval⟩) =
                zigzagRun rest (some ⟨pidx, false, pval⟩) := by
              simp [zigzagRun, hcl, hleq]
            rw [hres]
            exact ih ⟨pidx, false, pval⟩ hmem' hsort' hgt' hpt
        | true =>
          have hres : zigzagRun ((i, c) :: rest) (some ⟨pidx, false, pval⟩) =
              pidx :: zigzagRun rest (some ⟨i, true, price⟩) := by
            simp [zigzagRun, hcl]
          rw [hres]
          obtain ⟨j, hh, hij, hjt, hch⟩ :=
            ih ⟨i, true, price⟩ hmem' hsort' hhead hit
          refine ⟨pidx, rfl, le_refl _, hpt, ?_⟩
          refine List.chain'_cons'.mpr ⟨?_, hch⟩
          intro b hb
          rw [hh] at hb
          cases hb
          have h2 : i ≤ j := hij
          refine ⟨by omega, ?_⟩
          rw [hpt, hjt]
          simp

/-- Invariant of the zigzag loop when the pending slot is empty, plus
nonemptiness of the keep-set as soon as any item carries a marker. -/
theorem zigzagRun_none_spec (items : List Candidate) :
    ∀ (l : List (ℕ × Candidate)),
      (∀ q ∈ l, items[q.1]? = some q.2) →
      List.Pairwise (fun a b => a.1 < b.1) l →
      List.Chain' (fun a b => a < b ∧ isTopAt items a ≠ isTopAt items b)
          (zigzagRun l none) ∧
        ((∃ q ∈ l, (classify q.2).isSome) → zigzagRun l none ≠ []) := by
  intro l
  induction l with
  | nil => exact fun _ _ => ⟨by simp [zigzagRun], by simp⟩
  | cons q rest ih =>
    obtain ⟨i, c⟩ := q
    intro hmem hsort
    have hmem' : ∀ q ∈ rest, items[q.1]? = some q.2 :=
      fun q hq => hmem q (List.mem_cons_of_mem _ hq)
    have hhead : ∀ q ∈ rest, i < q.1 := fun q hq =>
      (List.pairwise_cons.mp hsort).1 q hq
    cases hcl : classify c with
    | none =>
      have hres : zigzagRun ((i, c) :: rest) none = zigzagRun rest none := by
        simp [zigzagRun, hcl]
      rw [hres]
      obtain ⟨h1, h2⟩ := ih hmem' hsort.of_cons
      refine ⟨h1, fun hex => h2 ?_⟩
      obtain ⟨q, hq, hqs⟩ := hex
      rcases List.mem_cons.mp hq with hq | hq
      · rw [hq] at hqs; simp [hcl] at hqs
      · exact ⟨q, hq, hqs⟩
    | some tp =>
      obtain ⟨t, price⟩ := tp
      have hit : isTopAt items i = t := by
        have hic : items[i]? = some c := hmem (i, c) (List.mem_cons_self _ _)
        simp [isTopAt, hic, classifyBool, hcl]
      have hres : zigzagRun ((i, c) :: rest) none =
          zigzagRun rest (some ⟨i, t, price⟩) := by
        simp [zigzagRun, hcl]
      rw [hres]
      obtain ⟨j, hh, -, -, hch⟩ :=
        zigzagRun_some_spec items rest ⟨i, t, price⟩ hmem' hsort.of_cons hhead hit
      exact ⟨hch, fun _ => by
        intro hnil
        rw [hnil] at hh
        simp at hh⟩

/-- C1: for every candidate sequence, reading the keep-set returned by
`filterRelevantSignals` in candidate order, the top/bottom classifications of
consecutive kept entries strictly alternate (and the kept indices are
returned in strictly increasing candidate order). -/
theorem C1_keepSet_alternates (items : List Candidate) :
    List.Chain' (fun i j => i < j ∧ isTopAt items i ≠ isTopAt items j)
      (filterRelevantSignals items) :=
  (zigzagRun_none_spec items (enumFrom 0 items)
    (enumFrom_zero_mem items) (enumFrom_pairwise items 0)).1

/-- C6: a marker-bearing candidate is classified as a top candidate iff
`|marker − high| ≤ |marker − low|` over its effective high/low, and the
resolved anchor price is exactly the candidate's high in the top case and
exactly its low in the bottom case. -/
theorem C6_classification (c : Candidate) (m h l : ℚ)
    (hm : c.topoFundo = some (.num m)) (hh : candHigh c = .num h)
    (hl : candLow c = .num l) :
    classify c = some (decide (|m - h| ≤ |m - l|),
      if |m - h| ≤ |m - l| then JSNum.num h else JSNum.num l) := by
  simp only [classify, hm, hh, hl, jsub, jabs, jle]
  by_cases hle : |m - h| ≤ |m - l| <;> simp [hle]

/-- Witness for C6 at a concrete candidate (marker 7, high 10, low 0:
a top candidate anchored at the high). -/
theorem C6_classification_witness :
    classify ⟨some (.num 7), .num 10, .num 0, none⟩ =
      some (decide (|(7 : ℚ) - 10| ≤ |(7 : ℚ) - 0|),
        if |(7 : ℚ) - 10| ≤ |(7 : ℚ) - 0| then JSNum.num 10 else JSNum.num 0) :=
  C6_classification _ 7 10 0 rfl rfl rfl

/-- C3 counterexample: a marker-bearing candidate with non-finite (`NaN`)
high is not skipped; it is classified (as a bottom candidate anchored at its
low) and kept, whereas treating the marker as absent would return an empty
keep-set. -/
theorem C3_counterexample :
    filterRelevantSignals [⟨some (.num 5), .nan, .num 0, none⟩] = [0] ∧
      classify ⟨some (.num 5), .nan, .num 0, none⟩ = some (false, .num 0) ∧
      filterRelevantSignals [⟨none, .nan, .num 0, none⟩] = [] := by
  refine ⟨?_, ?_, ?_⟩ <;>
    simp [filterRelevantSignals, zigzagRun, enumFrom, classify, candHigh,
      candLow, jsub, jabs, jle, jge]

/-- C3 amended: the filter never skips a marker-bearing candidate with
non-finite geometry and never fails — the candidate is always classified,
by the JavaScript comparison semantics.  A `NaN` effective high or `NaN`
effective low makes `distHigh <= distLow` false, yielding a bottom candidate
anchored at the effective low; an infinite effective high (with finite
marker and low) likewise yields a bottom at the low; but an infinite
effective LOW (with finite marker and high) makes the comparison true,
yielding a TOP candidate anchored at the effective high.  The pass then
continues over the remaining candidates. -/
theorem C3_amended (c : Candidate) (m : JSNum) (hm : c.topoFundo = some m) :
    (classify c).isSome ∧
      (candHigh c = .nan → classify c = some (false, candLow c)) ∧
      (candLow c = .nan → classify c = some (false, candLow c)) ∧
      (∀ a b : ℚ, m = .num a → candHigh c = .num b →
        (candLow c = .inf ∨ candLow c = .ninf) →
        classify c = some (true, .num b)) ∧
      (∀ a b : ℚ, m = .num a → candLow c = .num b →
        (candHigh c = .inf ∨ candHigh c = .ninf) →
        classify c = some (false, .num b)) := by
  refine ⟨by simp [classify, hm], ?_, ?_, ?_, ?_⟩
  · intro hh
    cases m <;> simp [classify, hm, hh, jsub, jabs, jle]
  · intro hl
    cases m <;> cases hhi : candHigh c <;>
      simp [classify, hm, hl, hhi, jsub, jabs, jle]
  · intro a b hma hhb hlo
    rcases hlo with hlo | hlo <;>
      simp [classify, hm, hma, hhb, hlo, jsub, jabs, jle]
  · intro a b hma hlb hhi
    rcases hhi with hhi | hhi <;>
      simp [classify, hm, hma, hlb, hhi, jsub, jabs, jle]

/-- Witness for C3's amended statement: a `NaN`-high candidate classified as
a bottom at its low, and an infinite-low candidate classified as a top at
its high. -/
theorem C3_amended_witness :
    classify ⟨some (.num 5), .nan, .num 7, none⟩ = some (false, .num 7) ∧
      classify ⟨some (.num 5), .num 10, .inf, none⟩ = some (true, .num 10) :=
  ⟨(C3_amended ⟨some (.num 5), .nan, .num 7, none⟩ (.num 5) rfl).2.1 rfl,
    (C3_amended ⟨some (.num 5), .num 10, .inf, none⟩ (.num 5) rfl).2.2.2.1
      5 10 rfl rfl (.inl rfl)⟩

/-- C7 counterexample: with candidates classified top(12) then top(10), the
second (last marker-bearing candidate, with no subsequent alternation) loses
the conflict against the pending top and is not in the keep-set. -/
theorem C7_counterexample :
    filterRelevantSignals
        [⟨some (.num 12), .num 12, .num 0, none⟩,
         ⟨some (.num 10), .num 10, .num 0, none⟩] = [0] ∧
      (Candidate.topoFundo ⟨some (.num 10), .num 10, .num 0, none⟩).isSome ∧
      1 ∉ filterRelevantSignals
        [⟨some (.num 12), .num 12, .num 0, none⟩,
         ⟨some (.num 10), .num 10, .num 0, none⟩] := by
  refine ⟨?_, ?_, ?_⟩ <;>
    simp [filterRelevantSignals, zigzagRun, enumFrom, classify, candHigh,
      candLow, jsub, jabs, jle, jge] <;>
    norm_num

/-- C7 amended: the final pending extreme is always committed, so any
candidate sequence containing at least one marker-bearing candidate yields a
nonempty keep-set (though the committed candidate need not be the last
marker-bearing one). -/
theorem C7_amended (items : List Candidate)
    (h : ∃ c ∈ items, c.topoFundo.isSome) :
    filterRelevantSignals items ≠ [] := by
  obtain ⟨c, hc, hm⟩ := h
  obtain ⟨i, hi⟩ := List.getElem?_of_mem hc
  refine (zigzagRun_none_spec items (enumFrom 0 items)
    (enumFrom_zero_mem items) (enumFrom_pairwise items 0)).2 ?_
  refine ⟨(0 + i, c), enumFrom_mem_of_getElem? items 0 i c hi, ?_⟩
  exact (classify_isSome c).mpr hm

/-- Witness for C7's amended statement at a concrete one-candidate list. -/
theorem C7_amended_witness :
    filterRelevantSignals [⟨some (.num 12), .num 12, .num 0, none⟩] ≠ [] :=
  C7_amended _ ⟨_, List.mem_singleton.mpr rfl, rfl⟩

/-! ## The Renko brick resampler (`src/utils/renkoHelper.ts`) -/

/-- `FinancialDataPoint` from `src/types.ts`.  Prices are modelled as exact
rationals; the optional indicator fields stay optional. -/
structure FinancialDataPoint where
  date : String
  «open» : ℚ
  high : ℚ
  low : ℚ
  close : ℚ
  volume : ℚ
  mm72 : Option ℚ
  jma : Option ℚ
  topoFundo : Option ℚ
deriving DecidableEq, Repr

/-- The `'up' | 'down'` brick direction. -/
inductive BrickType where
  | up
  | down
deriving DecidableEq, Repr

/-- `RenkoBrick` from `renkoHelper.ts`: `bounds` is the body `[min, max]`,
`wickBounds` the wick `[min, max]`. -/
structure RenkoBrick where
  index : ℕ
  date : String
  «open» : ℚ
  close : ℚ
  high : ℚ
  low : ℚ
  type : BrickType
  bounds : ℚ × ℚ
  wickBounds : ℚ × ℚ
  mm72 : Option ℚ
  jma : Option ℚ
  topoFundo : Option ℚ
deriving DecidableEq, Repr

/-- The `while (close >= currentRefPrice + brickSize)` up-brick loop of
`calculateRenkoBricks`.  Returns the emitted bricks together with the final
reference price and brick index.  The `0 < size` conjunct in the guard is
established once by the caller's `brickSize <= 0` early return; it is kept
in the guard here so the loop is well defined for all parameters. -/
def emitUp (close size : ℚ) (date : String) (mm72 jma topoFundo : Option ℚ)
    (ref : ℚ) (idx : ℕ) : List RenkoBrick × ℚ × ℕ :=
  if h : 0 < size ∧ ref + size ≤ close then
    let b : RenkoBrick :=
      { index := idx, date := date, «open» := ref, close := ref + size,
        high := ref + size, low := ref, type := .up,
        bounds := (ref, ref + size), wickBounds := (ref, ref + size),
        mm72 := mm72, jma := jma, topoFundo := topoFundo }
    let r := emitUp close size date mm72 jma topoFundo (ref + size) (idx + 1)
    (b :: r.1, r.2)
  else ([], ref, idx)
termination_by (⌊(close - ref) / size⌋).toNat
decreasing_by
  obtain ⟨hs, hc⟩ := h
  have hsne : size ≠ 0 := ne_of_gt hs
  have h1 : (1 : ℚ) ≤ (close - ref) / size := (one_le_div hs).mpr (by linarith)
  have h2 : (close - (ref + size)) / size = (close - ref) / size - 1 := by
    calc (close - (ref + size)) / size = ((close - ref) - size) / size := by ring_nf
    _ = (close - ref) / size - size / size := by rw [sub_div]
    _ = (close - ref) / size - 1 := by rw [div_self hsne]
  have h3 : ⌊(close - (ref + size)) / size⌋ = ⌊(close - ref) / size⌋ - 1 := by
    rw [h2, Int.floor_sub_one]
  have h4 : (1 : ℤ) ≤ ⌊(close - ref) / size⌋ := Int.le_floor.mpr (by exact_mod_cast h1)
  simp only [h3]
  omega

/-- The `while (close <= currentRefPrice - brickSize)` down-brick loop of
`calculateRenkoBricks` (for a down brick, `high` is the open and `low` the
close). -/
def emitDown (close size : ℚ) (date : String) (mm72 jma topoFundo : Option ℚ)
    (ref : ℚ) (idx : ℕ) : List RenkoBrick × ℚ × ℕ :=
  if h : 0 < size ∧ close ≤ ref - size then
    let b : RenkoBrick :=
      { index := idx, date := date, «open» := ref, close := ref - size,
        high := ref, low := ref - size, type := .down,
        bounds := (ref - size, ref), wickBounds := (ref - size, ref),
        mm72 := mm72, jma := jma, topoFundo := topoFundo }
    let r := emitDown close size date mm72 jma topoFundo (ref - size) (idx + 1)
    (b :: r.1, r.2)
  else ([], ref, idx)
termination_by (⌊(ref - close) / size⌋).toNat
decreasing_by
  obtain ⟨hs, hc⟩ := h
  have hsne : size ≠ 0 := ne_of_gt hs
  have h1 : (1 : ℚ) ≤ (ref - close) / size := (one_le_div hs).mpr (by linarith)
  have h2 : (ref - size - close) / size = (ref - close) / size - 1 := by
    calc (ref - size - close) / size = ((ref - close) - size) / size := by ring_nf
    _ = (ref - close) / size - size / size := by rw [sub_div]
    _ = (ref - close) / size - 1 := by rw [div_self hsne]
  have h3 : ⌊(ref - size - close) / size⌋ = ⌊(ref - close) / size⌋ - 1 := by
    rw [h2, Int.floor_sub_one]
  have h4 : (1 : ℤ) ≤ ⌊(ref - close) / size⌋ := Int.le_floor.mpr (by exact_mod_cast h1)
  simp only [h3]
  omega

/-- Both brick-emission loops of one bar, in source order (the down loop
starts from the reference price left by the up loop). -/
def barBricks (size : ℚ) (d : FinancialDataPoint) (ref : ℚ) (idx : ℕ) :
    List RenkoBrick × ℚ × ℕ :=
  let up := emitUp d.close size d.date d.mm72 d.jma d.topoFundo ref idx
  let down := emitDown d.close size d.date d.mm72 d.jma d.topoFundo up.2.1 up.2.2
  (up.1 ++ down.1, down.2)

/-- State of the `forEach` scan locating the bricks with the highest body top
and the lowest body bottom.  `maxVal = none` models the `-Infinity` start
value and `minVal = none` the `Infinity` start value (always replaced on the
first brick). -/
structure ScanState where
  maxBrickIdx : ℕ
  minBrickIdx : ℕ
  maxVal : Option ℚ
  minVal : Option ℚ
deriving DecidableEq, Repr

/-- One step of the scan: `if (bTop > maxVal) ...; if (bBottom < minVal) ...`. -/
def scanStep (st : ScanState) (p : ℕ × RenkoBrick) : ScanState :=
  let bTop := p.2.bounds.2
  let bBottom := p.2.bounds.1
  let st1 :=
    match st.maxVal with
    | none => { st with maxVal := some bTop, maxBrickIdx := p.1 }
    | some v =>
      if bTop > v then { st with maxVal := some bTop, maxBrickIdx := p.1 } else st
  match st1.minVal with
  | none => { st1 with minVal := some bBottom, minBrickIdx := p.1 }
  | some v =>
    if bBottom < v then { st1 with minVal := some bBottom, minBrickIdx := p.1 } else st1

/-- The full scan over the batch of bricks created from one bar. -/
def scanExtremes (l : List RenkoBrick) : ScanState :=
  (enumFrom 0 l).foldl scanStep ⟨0, 0, none, none⟩

/-- In-place update of the element at an index (identity when out of range),
modelling mutation of `createdBricksInThisStep[i]`. -/
def modifyAt {α : Type} (l : List α) (i : ℕ) (f : α → α) : List α :=
  match l[i]? with
  | some a => l.set i (f a)
  | none => l

/-- Wick distribution and marker anchoring for the batch of bricks created
from one bar: the highest brick receives the accumulated period high as wick
top, the lowest brick the period low as wick bottom, every brick's wick is
clamped to contain its body, and a truthy `topoFundo` (present and nonzero)
is assigned to the highest brick when strictly nearer to the period high
than to the period low, else to the lowest brick. -/
def assignWicks (created : List RenkoBrick) (pH pL : ℚ) (tf : Option ℚ) :
    List RenkoBrick :=
  let st := scanExtremes created
  let l1 := modifyAt created st.maxBrickIdx fun hb =>
    { hb with wickBounds := (hb.wickBounds.1, max pH hb.bounds.2) }
  let l2 := modifyAt l1 st.minBrickIdx fun lb =>
    { lb with wickBounds := (min pL lb.bounds.1, lb.wickBounds.2) }
  let l3 := l2.map fun b =>
    { b with wickBounds := (min b.wickBounds.1 b.bounds.1,
                            max b.wickBounds.2 b.bounds.2) }
  match tf with
  | some m =>
    if m ≠ 0 then
      if |m - pH| < |m - pL| then
        modifyAt l3 st.maxBrickIdx fun hb => { hb with topoFundo := some m }
      else
        modifyAt l3 st.minBrickIdx fun lb => { lb with topoFundo := some m }
    else l3
  | none => l3

/-- The `for` loop of `calculateRenkoBricks` over the remaining bars, with
the current reference price, next brick index and accumulated period
high/low as explicit state.  After a bar that emitted bricks, the
accumulators are reset from the next bar's high/low (if one remains). -/
def renkoLoop (size : ℚ) : List FinancialDataPoint → ℚ → ℕ → ℚ → ℚ →
    List RenkoBrick
  | [], _, _, _, _ => []
  | d :: rest, ref, idx, pH0, pL0 =>
    let pH := if d.high > pH0 then d.high else pH0
    let pL := if d.low < pL0 then d.low else pL0
    let bb := barBricks size d ref idx
    if bb.1.isEmpty then
      renkoLoop size rest bb.2.1 bb.2.2 pH pL
    else
      let assigned := assignWicks bb.1 pH pL d.topoFundo
      match rest with
      | [] => assigned
      | e :: rest2 => assigned ++ renkoLoop size (e :: rest2) bb.2.1 bb.2.2 e.high e.low

/-- `calculateRenkoBricks` from `renkoHelper.ts`: empty input or
non-positive brick size yields the empty sequence; otherwise the reference
price starts from the first close floored to the brick-size grid and the
period extremes start from the first bar's high/low. -/
def calculateRenkoBricks (data : List FinancialDataPoint) (brickSize : ℚ) :
    List RenkoBrick :=
  match data with
  | [] => []
  | d :: rest =>
    if brickSize ≤ 0 then []
    else
      renkoLoop brickSize (d :: rest)
        (((⌊d.close / brickSize⌋ : ℤ) : ℚ) * brickSize) 0 d.high d.low

/-! ### Unfolding lemmas for the brick-emission loops -/

theorem emitUp_pos {close size : ℚ} {date : String} {m j t : Option ℚ}
    {ref : ℚ} {idx : ℕ} (h : 0 < size ∧ ref + size ≤ close) :
    emitUp close size date m j t ref idx =
      (⟨idx, date, ref, ref + size, ref + size, ref, .up, (ref, ref + size),
          (ref, ref + size), m, j, t⟩ ::
        (emitUp close size date m j t (ref + size) (idx + 1)).1,
       (emitUp close size date m j t (ref + size) (idx + 1)).2) := by
  rw [emitUp.eq_def, dif_pos h]

theorem emitUp_neg {close size : ℚ} {date : String} {m j t : Option ℚ}
    {ref : ℚ} {idx : ℕ} (h : ¬(0 < size ∧ ref + size ≤ close)) :
    emitUp close size date m j t ref idx = ([], ref, idx) := by
  rw [emitUp.eq_def, dif_neg h]

theorem emitDown_pos {close size : ℚ} {date : String} {m j t : Option ℚ}
    {ref : ℚ} {idx : ℕ} (h : 0 < size ∧ close ≤ ref - size) :
    emitDown close size date m j t ref idx =
      (⟨idx, date, ref, ref - size, ref, ref - size, .down, (ref - size, ref),
          (ref - size, ref), m, j, t⟩ ::
        (emitDown close size date m j t (ref - size) (idx + 1)).1,
       (emitDown close size date m j t (ref - size) (idx + 1)).2) := by
  rw [emitDown.eq_def, dif_pos h]

theorem emitDown_neg {close size : ℚ} {date : String} {m j t : Option ℚ}
    {ref : ℚ} {idx : ℕ} (h : ¬(0 < size ∧ close ≤ ref - size)) :
    emitDown close size date m j t ref idx = ([], ref, idx) := by
  rw [emitDown.eq_def, dif_neg h]

/-- The up loop leaves the reference price and index unchanged when it emits
no brick. -/
theorem emitUp_state {close size : ℚ} {date : String} {m j t : Option ℚ}
    {ref : ℚ} {idx : ℕ} (h : (emitUp close size date m j t ref idx).1 = []) :
    (emitUp close size date m j t ref idx).2.1 = ref ∧
      (emitUp close size date m j t ref idx).2.2 = idx := by
  by_cases hg : 0 < size ∧ ref + size ≤ close
  · rw [emitUp_pos hg] at h; simp at h
  · rw [emitUp_neg hg]; exact ⟨rfl, rfl⟩

theorem emitDown_state {close size : ℚ} {date : String} {m j t : Option ℚ}
    {ref : ℚ} {idx : ℕ} (h : (emitDown close size date m j t ref idx).1 = []) :
    (emitDown close size date m j t ref idx).2.1 = ref ∧
      (emitDown close size date m j t ref idx).2.2 = idx := by
  by_cases hg : 0 < size ∧ close ≤ ref - size
  · rw [emitDown_pos hg] at h; simp at h
  · rw [emitDown_neg hg]; exact ⟨rfl, rfl⟩

/-- Field contents of every brick emitted by the up loop. -/
theorem emitUp_mem (close size : ℚ) (date : String) (m j t : Option ℚ) :
    ∀ (ref : ℚ) (idx : ℕ),
      ∀ b ∈ (emitUp close size date m j t ref idx).1,
        0 < size ∧ b.type = .up ∧ b.close = b.«open» + size ∧
        b.bounds = (b.«open», b.close) ∧ b.wickBounds = b.bounds ∧
        b.topoFundo = t ∧ b.mm72 = m ∧ b.jma = j ∧ b.date = date ∧
        ∃ k : ℤ, b.«open» = ref + k * size := by
  intro ref idx
  induction ref, idx using emitUp.induct close size date m j t with
  | case1 ref idx h ih =>
    intro b hb
    rw [emitUp_pos h] at hb
    rcases List.mem_cons.mp hb with hb | hb
    · subst hb
      refine ⟨h.1, rfl, rfl, rfl, rfl, rfl, rfl, rfl, rfl, 0, by push_cast; ring⟩
    · obtain ⟨h1, h2, h3, h4, h5, h6, h7, h8, h9, k, hk⟩ := ih b hb
      exact ⟨h1, h2, h3, h4, h5, h6, h7, h8, h9, k + 1, by push_cast [hk]; ring⟩
  | case2 ref idx h =>
    intro b hb
    rw [emitUp_neg h] at hb
    simp at hb

/-- Field contents of every brick emitted by the down loop. -/
theorem emitDown_mem (close size : ℚ) (date : String) (m j t : Option ℚ) :
    ∀ (ref : ℚ) (idx : ℕ),
      ∀ b ∈ (emitDown close size date m j t ref idx).1,
        0 < size ∧ b.type = .down ∧ b.close = b.«open» - size ∧
        b.bounds = (b.close, b.«open») ∧ b.wickBounds = b.bounds ∧
        b.topoFundo = t ∧ b.mm72 = m ∧ b.jma = j ∧ b.date = date ∧
        ∃ k : ℤ, b.«open» = ref + k * size := by
  intro ref idx
  induction ref, idx using emitDown.induct close size date m j t with
  | case1 ref idx h ih =>
    intro b hb
    rw [emitDown_pos h] at hb
    rcases List.mem_cons.mp hb with hb | hb
    · subst hb
      refine ⟨h.1, rfl, rfl, rfl, rfl, rfl, rfl, rfl, rfl, 0, by push_cast; ring⟩
    · obtain ⟨h1, h2, h3, h4, h5, h6, h7, h8, h9, k, hk⟩ := ih b hb
      exact ⟨h1, h2, h3, h4, h5, h6, h7, h8, h9, k - 1, by push_cast [hk]; ring⟩
  | case2 ref idx h =>
    intro b hb
    rw [emitDown_neg h] at hb
    simp at hb

/-- The up loop's output is chained (each close is the next open) and opens
at the incoming reference price. -/
theorem emitUp_chain (close size : ℚ) (date : String) (m j t : Option ℚ) :
    ∀ (ref : ℚ) (idx : ℕ),
      List.Chain' (fun a b => a.close = b.«open»)
          (emitUp close size date m j t ref idx).1 ∧
        (∀ b, (emitUp close size date m j t ref idx).1.head? = some b →
          b.«open» = ref) := by
  intro ref idx
  induction ref, idx using emitUp.induct close size date m j t with
  | case1 ref idx h ih =>
    rw [emitUp_pos h]
    refine ⟨List.Chain'.cons' ih.1 ?_, ?_⟩
    · intro y hy
      have := ih.2 y hy
      simp [this]
    · intro b hb
      simp at hb
      rw [← hb]
  | case2 ref idx h =>
    rw [emitUp_neg h]
    exact ⟨List.chain'_nil, fun b hb => by simp at hb⟩

theorem emitDown_chain (close size : ℚ) (date : String) (m j t : Option ℚ) :
    ∀ (ref : ℚ) (idx : ℕ),
      List.Chain' (fun a b => a.close = b.«open»)
          (emitDown close size date m j t ref idx).1 ∧
        (∀ b, (emitDown close size date m j t ref idx).1.head? = some b →
          b.«open» = ref) := by
  intro ref idx
  induction ref, idx using emitDown.induct close size date m j t with
  | case1 ref idx h ih =>
    rw [emitDown_pos h]
    refine ⟨List.Chain'.cons' ih.1 ?_, ?_⟩
    · intro y hy
      have := ih.2 y hy
      simp [this]
    · intro b hb
      simp at hb
      rw [← hb]
  | case2 ref idx h =>
    rw [emitDown_neg h]
    exact ⟨List.chain'_nil, fun b hb => by simp at hb⟩

/-- The last brick of the up loop closes at the final reference price, which
stays at most `close` (and on the incoming grid) whenever a brick was
emitted. -/
theorem emitUp_last (close size : ℚ) (date : String) (m j t : Option ℚ) :
    ∀ (ref : ℚ) (idx : ℕ),
      (∀ b, (emitUp close size date m j t ref idx).1.getLast? = some b →
        b.close = (emitUp close size date m j t ref idx).2.1) ∧
        ((emitUp close size date m j t ref idx).1 ≠ [] →
          0 < size ∧ (emitUp close size date m j t ref idx).2.1 ≤ close) ∧
        (∃ k : ℤ, (emitUp close size date m j t ref idx).2.1 = ref + k * size) := by
  intro ref idx
  induction ref, idx using emitUp.induct close size date m j t with
  | case1 ref idx h ih =>
    obtain ⟨ihl, ihne, kk, hkk⟩ := ih
    rw [emitUp_pos h]
    refine ⟨?_, ?_, kk + 1, by push_cast [hkk]; ring⟩
    · intro b hb
      rcases hr : (emitUp close size date m j t (ref + size) (idx + 1)).1 with _ | ⟨x, xs⟩
      · rw [hr] at hb
        simp at hb
        have := (emitUp_state hr).1
        simp [← hb, this]
      · rw [hr] at hb
        rw [List.getLast?_cons_cons] at hb
        rw [← hr] at hb
        exact ihl b hb
    · intro _
      refine ⟨h.1, ?_⟩
      rcases hr : (emitUp close size date m j t (ref + size) (idx + 1)).1 with _ | ⟨x, xs⟩
      · have := (emitUp_state hr).1
        rw [this]
        exact h.2
      · exact (ihne (by rw [hr]; simp)).2
  | case2 ref idx h =>
    rw [emitUp_neg h]
    exact ⟨fun b hb => by simp at hb, fun hne => absurd rfl hne, 0, by push_cast; ring⟩

theorem emitDown_last (close size : ℚ) (date : String) (m j t : Option ℚ) :
    ∀ (ref : ℚ) (idx : ℕ),
      (∀ b, (emitDown close size date m j t ref idx).1.getLast? = some b →
        b.close = (emitDown close size date m j t ref idx).2.1) ∧
        ((emitDown close size date m j t ref idx).1 ≠ [] →
          0 < size ∧ close ≤ (emitDown close size date m j t ref idx).2.1) ∧
        (∃ k : ℤ, (emitDown close size date m j t ref idx).2.1 = ref + k * size) := by
  intro ref idx
  induction ref, idx using emitDown.induct close size date m j t with
  | case1 ref idx h ih =>
    obtain ⟨ihl, ihne, kk, hkk⟩ := ih
    rw [emitDown_pos h]
    refine ⟨?_, ?_, kk - 1, by push_cast [hkk]; ring⟩
    · intro b hb
      rcases hr : (emitDown close size date m j t (ref - size) (idx + 1)).1 with _ | ⟨x, xs⟩
      · rw [hr] at hb
        simp at hb
        have := (emitDown_state hr).1
        simp [← hb, this]
      · rw [hr] at hb
        rw [List.getLast?_cons_cons] at hb
        rw [← hr] at hb
        exact ihl b hb
    · intro _
      refine ⟨h.1, ?_⟩
      rcases hr : (emitDown close size date m j t (ref - size) (idx + 1)).1 with _ | ⟨x, xs⟩
      · have := (emitDown_state hr).1
        rw [this]
        exact h.2
      · exact (ihne (by rw [hr]; simp)).2
  | case2 ref idx h =>
    rw [emitDown_neg h]
    exact ⟨fun b hb => by simp at hb, fun hne => absurd rfl hne, 0, by push_cast; ring⟩

/-! ### Transport of brick facts through the wick/marker assignment -/

theorem forall₂_mem_right {α : Type} {R : α → α → Prop} :
    ∀ {l l' : List α}, List.Forall₂ R l l' → ∀ b ∈ l', ∃ a ∈ l, R a b := by
  intro l l' h
  induction h with
  | nil => simp
  | cons hab htail ih =>
    intro b hb
    rcases List.mem_cons.mp hb with hb | hb
    · subst hb
      exact ⟨_, List.mem_cons_self _ _, hab⟩
    · obtain ⟨a, ha, hr⟩ := ih b hb
      exact ⟨a, List.mem_cons_of_mem _ ha, hr⟩

theorem forall₂_head {α : Type} {R : α → α → Prop} {l l' : List α}
    (h : List.Forall₂ R l l') :
    ∀ b, l'.head? = some b → ∃ a, l.head? = some a ∧ R a b := by
  cases h with
  | nil => simp
  | cons hab htail =>
    intro b hb
    simp only [List.head?_cons, Option.some.injEq] at hb
    subst hb
    exact ⟨_, rfl, hab⟩

theorem forall₂_getLast {α : Type} {R : α → α → Prop} :
    ∀ {l l' : List α}, List.Forall₂ R l l' →
      ∀ b, l'.getLast? = some b → ∃ a, l.getLast? = some a ∧ R a b := by
  intro l l' h
  induction h with
  | nil => simp
  | @cons a b l₁ l₁' hab htail ih =>
    intro z hz
    cases hl : l₁' with
    | nil =>
      subst hl
      have hl₁ : l₁ = [] := List.forall₂_nil_right_iff.mp htail
      subst hl₁
      simp only [List.getLast?_singleton, Option.some.injEq] at hz
      subst hz
      exact ⟨a, rfl, hab⟩
    | cons x xs =>
      subst hl
      obtain ⟨y, l₂, hy, htail2, rfl⟩ := List.forall₂_cons_right_iff.mp htail
      rw [List.getLast?_cons_cons] at hz
      obtain ⟨w, hw, hr⟩ := ih z hz
      exact ⟨w, by rw [List.getLast?_cons_cons]; exact hw, hr⟩

theorem forall₂_chain {α : Type} {S R : α → α → Prop}
    (hcompat : ∀ a b a' b', S a a' → S b b' → R a b → R a' b') :
    ∀ {l l' : List α}, List.Forall₂ S l l' → List.Chain' R l → List.Chain' R l' := by
  intro l l' h
  induction h with
  | nil => exact fun _ => List.chain'_nil
  | @cons a b l₁ l₁' hab htail ih =>
    intro hch
    refine List.Chain'.cons' (ih hch.tail) ?_
    intro y hy
    obtain ⟨x, hx, hs⟩ := forall₂_head htail y hy
    exact hcompat a x b y hab hs (hch.rel_head? hx)

theorem forall₂_trans_of {α : Type} {R : α → α → Prop}
    (htrans : ∀ a b c, R a b → R b c → R a c) :
    ∀ {l1 l2 l3 : List α}, List.Forall₂ R l1 l2 → List.Forall₂ R l2 l3 →
      List.Forall₂ R l1 l3 := by
  intro l1 l2 l3 h12
  induction h12 generalizing l3 with
  | nil =>
    intro h23
    obtain rfl := List.forall₂_nil_left_iff.mp h23
    exact .nil
  | cons hab htail ih =>
    intro h23
    obtain ⟨c, l3', hbc, htail23, rfl⟩ := List.forall₂_cons_left_iff.mp h23
    exact .cons (htrans _ _ _ hab hbc) (ih htail23)

theorem modifyAt_forall₂ {α : Type} (R : α → α → Prop) (hrefl : ∀ a, R a a)
    (l : List α) (i : ℕ) (f : α → α) (hf : ∀ a, R a (f a)) :
    List.Forall₂ R l (modifyAt l i f) := by
  unfold modifyAt
  cases hg : l[i]? with
  | none => exact List.forall₂_same.mpr fun x _ => hrefl x
  | some a =>
    rw [List.forall₂_iff_get]
    refine ⟨by simp, ?_⟩
    intro j h1 h2
    simp only [List.get_eq_getElem, List.getElem_set]
    by_cases hij : i = j
    · subst hij
      rw [if_pos rfl]
      have hlt : i < l.length := h1
      have hli : l[i] = a := by
        have h' := List.getElem?_eq_getElem hlt
        rw [hg] at h'
        exact Option.some_injective _ h'.symm
      rw [hli]
      exact hf a
    · rw [if_neg hij]
      exact hrefl _

theorem mem_modifyAt {α : Type} {l : List α} {i : ℕ} {f : α → α} :
    ∀ b ∈ modifyAt l i f, b ∈ l ∨ ∃ a ∈ l, b = f a := by
  intro b hb
  unfold modifyAt at hb
  cases hg : l[i]? with
  | none => rw [hg] at hb; exact .inl hb
  | some a =>
    rw [hg] at hb
    rcases List.mem_or_eq_of_mem_set hb with h | h
    · exact .inl h
    · have ha : a ∈ l := by
        have := List.getElem?_eq_some.mp hg
        obtain ⟨hlt, hrfl⟩ := this
        exact hrfl ▸ List.getElem_mem hlt
      exact .inr ⟨a, ha, h⟩

theorem map_forall₂ {α : Type} (R : α → α → Prop) (f : α → α)
    (hf : ∀ a, R a (f a)) :
    ∀ (l : List α), List.Forall₂ R l (l.map f) := by
  intro l
  induction l with
  | nil => exact .nil
  | cons a t ih => exact .cons (hf a) ih

/-- Relation between a freshly created brick and its version after the wick
distribution and marker anchoring: every field except `wickBounds` is
preserved, except that `topoFundo` may also have been (re)assigned the bar's
truthy marker `tf`. -/
def wickTopo (tf : Option ℚ) (a b : RenkoBrick) : Prop :=
  a.index = b.index ∧ a.date = b.date ∧ a.«open» = b.«open» ∧
  a.close = b.close ∧ a.high = b.high ∧ a.low = b.low ∧ a.type = b.type ∧
  a.bounds = b.bounds ∧ a.mm72 = b.mm72 ∧ a.jma = b.jma ∧
  (b.topoFundo = a.topoFundo ∨ b.topoFundo = tf)

theorem wickTopo_refl (tf : Option ℚ) (a : RenkoBrick) : wickTopo tf a a :=
  ⟨rfl, rfl, rfl, rfl, rfl, rfl, rfl, rfl, rfl, rfl, .inl rfl⟩

theorem wickTopo_trans (tf : Option ℚ) (a b c : RenkoBrick)
    (h1 : wickTopo tf a b) (h2 : wickTopo tf b c) : wickTopo tf a c := by
  obtain ⟨a1, a2, a3, a4, a5, a6, a7, a8, a9, a10, a11⟩ := h1
  obtain ⟨b1, b2, b3, b4, b5, b6, b7, b8, b9, b10, b11⟩ := h2
  refine ⟨a1.trans b1, a2.trans b2, a3.trans b3, a4.trans b4, a5.trans b5,
    a6.trans b6, a7.trans b7, a8.trans b8, a9.trans b9, a10.trans b10, ?_⟩
  rcases b11 with h | h
  · rcases a11 with h' | h'
    · exact .inl (h.trans h')
    · exact .inr (h.trans h')
  · exact .inr h

theorem assignWicks_forall₂ (created : List RenkoBrick) (pH pL : ℚ)
    (tf : Option ℚ) :
    List.Forall₂ (wickTopo tf) created (assignWicks created pH pL tf) := by
  have htr : ∀ {l1 l2 l3 : List RenkoBrick},
      List.Forall₂ (wickTopo tf) l1 l2 → List.Forall₂ (wickTopo tf) l2 l3 →
        List.Forall₂ (wickTopo tf) l1 l3 :=
    fun h12 h23 => forall₂_trans_of (wickTopo_trans tf) h12 h23
  have hid : ∀ a : RenkoBrick, ∀ w : ℚ × ℚ,
      wickTopo tf a { a with wickBounds := w } :=
    fun a w => ⟨rfl, rfl, rfl, rfl, rfl, rfl, rfl, rfl, rfl, rfl, .inl rfl⟩
  unfold assignWicks
  dsimp only
  cases tf with
  | none =>
    exact htr (htr
      (modifyAt_forall₂ _ (wickTopo_refl _) _ _ _ fun a => hid a _)
      (modifyAt_forall₂ _ (wickTopo_refl _) _ _ _ fun a => hid a _))
      (map_forall₂ _ _ (fun a => hid a _) _)
  | some m =>
    dsimp only
    by_cases hm : m ≠ 0
    · rw [if_pos hm]
      by_cases hd : |m - pH| < |m - pL|
      · rw [if_pos hd]
        exact htr (htr (htr
          (modifyAt_forall₂ _ (wickTopo_refl _) _ _ _ fun a => hid a _)
          (modifyAt_forall₂ _ (wickTopo_refl _) _ _ _ fun a => hid a _))
          (map_forall₂ _ _ (fun a => hid a _) _))
          (modifyAt_forall₂ _ (wickTopo_refl _) _ _ _ fun a =>
            ⟨rfl, rfl, rfl, rfl, rfl, rfl, rfl, rfl, rfl, rfl, .inr rfl⟩)
      · rw [if_neg hd]
        exact htr (htr (htr
          (modifyAt_forall₂ _ (wickTopo_refl _) _ _ _ fun a => hid a _)
          (modifyAt_forall₂ _ (wickTopo_refl _) _ _ _ fun a => hid a _))
          (map_forall₂ _ _ (fun a => hid a _) _))
          (modifyAt_forall₂ _ (wickTopo_refl _) _ _ _ fun a =>
            ⟨rfl, rfl, rfl, rfl, rfl, rfl, rfl, rfl, rfl, rfl, .inr rfl⟩)
    · rw [if_neg hm]
      exact htr (htr
        (modifyAt_forall₂ _ (wickTopo_refl _) _ _ _ fun a => hid a _)
        (modifyAt_forall₂ _ (wickTopo_refl _) _ _ _ fun a => hid a _))
        (map_forall₂ _ _ (fun a => hid a _) _)

theorem assignWicks_containment (created : List RenkoBrick) (pH pL : ℚ)
    (tf : Option ℚ) :
    ∀ b ∈ assignWicks created pH pL tf,
      b.wickBounds.1 ≤ b.bounds.1 ∧ b.bounds.2 ≤ b.wickBounds.2 := by
  have hl3 : ∀ (l : List RenkoBrick),
      ∀ x ∈ l.map (fun b => { b with wickBounds := (min b.wickBounds.1 b.bounds.1,
                                                    max b.wickBounds.2 b.bounds.2) }),
        x.wickBounds.1 ≤ x.bounds.1 ∧ x.bounds.2 ≤ x.wickBounds.2 := by
    intro l x hx
    obtain ⟨y, hy, rfl⟩ := List.mem_map.mp hx
    exact ⟨min_le_right _ _, le_max_right _ _⟩
  intro b hb
  unfold assignWicks at hb
  dsimp only at hb
  cases tf with
  | none => exact hl3 _ b hb
  | some m =>
    dsimp only at hb
    by_cases hm : m ≠ 0
    · rw [if_pos hm] at hb
      by_cases hd : |m - pH| < |m - pL|
      · rw [if_pos hd] at hb
        rcases mem_modifyAt b hb with h | ⟨a, ha, rfl⟩
        · exact hl3 _ b h
        · exact hl3 _ a ha
      · rw [if_neg hd] at hb
        rcases mem_modifyAt b hb with h | ⟨a, ha, rfl⟩
        · exact hl3 _ b h
        · exact hl3 _ a ha
    · rw [if_neg hm] at hb
      exact hl3 _ b hb

/-! ### Facts about the per-bar brick batch -/

theorem barBricks_state {size : ℚ} {d : FinancialDataPoint} {ref : ℚ} {idx : ℕ}
    (h : (barBricks size d ref idx).1 = []) :
    (barBricks size d ref idx).2.1 = ref ∧ (barBricks size d ref idx).2.2 = idx := by
  unfold barBricks at h ⊢
  dsimp only at h ⊢
  obtain ⟨hu, hd⟩ := List.append_eq_nil.mp h
  obtain ⟨hu1, hu2⟩ := emitUp_state hu
  obtain ⟨hd1, hd2⟩ := emitDown_state hd
  exact ⟨hd1.trans hu1, hd2.trans hu2⟩

theorem barBricks_mem {size : ℚ} {d : FinancialDataPoint} {ref : ℚ} {idx : ℕ} :
    ∀ b ∈ (barBricks size d ref idx).1,
      0 < size ∧ b.topoFundo = d.topoFundo ∧ b.mm72 = d.mm72 ∧
      b.jma = d.jma ∧ b.date = d.date ∧
      (b.close = b.«open» + size ∨ b.close = b.«open» - size) ∧
      b.bounds = (min b.«open» b.close, max b.«open» b.close) ∧
      b.wickBounds = b.bounds ∧
      (∃ k : ℤ, b.«open» = ref + k * size) := by
  intro b hb
  unfold barBricks at hb
  dsimp only at hb
  rcases List.mem_append.mp hb with hb | hb
  · obtain ⟨hs, _, hclose, hbounds, hwick, ht, hm, hj, hdate, k, hk⟩ :=
      emitUp_mem d.close size d.date d.mm72 d.jma d.topoFundo ref idx b hb
    refine ⟨hs, ht, hm, hj, hdate, .inl hclose, ?_, hwick, k, hk⟩
    rw [hbounds, hclose]
    have h1 : b.«open» ≤ b.«open» + size := by linarith
    rw [min_eq_left h1, max_eq_right h1]
  · obtain ⟨hs, _, hclose, hbounds, hwick, ht, hm, hj, hdate, k, hk⟩ :=
      emitDown_mem d.close size d.date d.mm72 d.jma d.topoFundo
        (emitUp d.close size d.date d.mm72 d.jma d.topoFundo ref idx).2.1
        (emitUp d.close size d.date d.mm72 d.jma d.topoFundo ref idx).2.2 b hb
    obtain ⟨-, -, ku, hku⟩ :=
      emitUp_last d.close size d.date d.mm72 d.jma d.topoFundo ref idx
    refine ⟨hs, ht, hm, hj, hdate, .inr hclose, ?_, hwick, ku + k, ?_⟩
    · rw [hbounds, hclose]
      have h1 : b.«open» - size ≤ b.«open» := by linarith
      rw [min_eq_right h1, max_eq_left h1]
    · rw [hk, hku]
      push_cast
      ring

theorem barBricks_chain {size : ℚ} {d : FinancialDataPoint} {ref : ℚ} {idx : ℕ} :
    List.Chain' (fun a b => a.close = b.«open») (barBricks size d ref idx).1 ∧
      (∀ b, (barBricks size d ref idx).1.head? = some b → b.«open» = ref) ∧
      (∀ b, (barBricks size d ref idx).1.getLast? = some b →
        b.close = (barBricks size d ref idx).2.1) ∧
      (∃ k : ℤ, (barBricks size d ref idx).2.1 = ref + k * size) := by
  obtain ⟨hupch, huphead⟩ :=
    emitUp_chain d.close size d.date d.mm72 d.jma d.topoFundo ref idx
  obtain ⟨huplast, hupne, ku, hku⟩ :=
    emitUp_last d.close size d.date d.mm72 d.jma d.topoFundo ref idx
  obtain ⟨hdnch, hdnhead⟩ :=
    emitDown_chain d.close size d.date d.mm72 d.jma d.topoFundo
      (emitUp d.close size d.date d.mm72 d.jma d.topoFundo ref idx).2.1
      (emitUp d.close size d.date d.mm72 d.jma d.topoFundo ref idx).2.2
  obtain ⟨hdnlast, hdnne, kd, hkd⟩ :=
    emitDown_last d.close size d.date d.mm72 d.jma d.topoFundo
      (emitUp d.close size d.date d.mm72 d.jma d.topoFundo ref idx).2.1
      (emitUp d.close size d.date d.mm72 d.jma d.topoFundo ref idx).2.2
  unfold barBricks
  dsimp only
  refine ⟨?_, ?_, ?_, ku + kd, by rw [hkd, hku]; push_cast; ring⟩
  · refine List.Chain'.append hupch hdnch ?_
    intro x hx y hy
    rw [huplast x hx, hdnhead y hy]
  · intro b hb
    rw [List.head?_append] at hb
    rcases hu : (emitUp d.close size d.date d.mm72 d.jma d.topoFundo ref idx).1
      with _ | ⟨x, xs⟩
    · rw [hu] at hb
      simp only [List.head?_nil, Option.none_or] at hb
      rw [hdnhead b hb, (emitUp_state hu).1]
    · rw [hu] at hb
      simp only [List.head?_cons, Option.or_some, Option.some.injEq] at hb
      subst hb
      exact huphead x (by rw [hu]; rfl)
  · intro b hb
    rw [List.getLast?_append] at hb
    rcases hd : (emitDown d.close size d.date d.mm72 d.jma d.topoFundo
        (emitUp d.close size d.date d.mm72 d.jma d.topoFundo ref idx).2.1
        (emitUp d.close size d.date d.mm72 d.jma d.topoFundo ref idx).2.2).1
      with _ | ⟨x, xs⟩
    · rw [hd] at hb
      simp only [List.getLast?_nil, Option.none_or] at hb
      rw [huplast b hb]
      exact ((emitDown_state hd).1).symm
    · rw [hd] at hb
      rcases hy : (x :: xs).getLast? with _ | y
      · exact absurd (List.getLast?_eq_none_iff.mp hy) (List.cons_ne_nil x xs)
      · rw [hy] at hb
        simp only [Option.or_some, Option.some.injEq] at hb
        subst hb
        exact hdnlast y (by rw [hd]; exact hy)

/-! ### Unfolding lemmas for the bar loop and the top-level entry point -/

theorem renkoLoop_nil (size : ℚ) (ref : ℚ) (idx : ℕ) (pH0 pL0 : ℚ) :
    renkoLoop size [] ref idx pH0 pL0 = [] := rfl

theorem renkoLoop_cons_nil (size : ℚ) (d : FinancialDataPoint) (ref : ℚ)
    (idx : ℕ) (pH0 pL0 : ℚ) :
    renkoLoop size [d] ref idx pH0 pL0 =
      if (barBricks size d ref idx).1.isEmpty then
        renkoLoop size [] (barBricks size d ref idx).2.1
          (barBricks size d ref idx).2.2
          (if d.high > pH0 then d.high else pH0)
          (if d.low < pL0 then d.low else pL0)
      else
        assignWicks (barBricks size d ref idx).1
          (if d.high > pH0 then d.high else pH0)
          (if d.low < pL0 then d.low else pL0) d.topoFundo := rfl

theorem renkoLoop_cons_cons (size : ℚ) (d e : FinancialDataPoint)
    (rest2 : List FinancialDataPoint) (ref : ℚ) (idx : ℕ) (pH0 pL0 : ℚ) :
    renkoLoop size (d :: e :: rest2) ref idx pH0 pL0 =
      if (barBricks size d ref idx).1.isEmpty then
        renkoLoop size (e :: rest2) (barBricks size d ref idx).2.1
          (barBricks size d ref idx).2.2
          (if d.high > pH0 then d.high else pH0)
          (if d.low < pL0 then d.low else pL0)
      else
        assignWicks (barBricks size d ref idx).1
          (if d.high > pH0 then d.high else pH0)
          (if d.low < pL0 then d.low else pL0) d.topoFundo ++
          renkoLoop size (e :: rest2) (barBricks size d ref idx).2.1
            (barBricks size d ref idx).2.2 e.high e.low := rfl

theorem calculateRenkoBricks_nil (s : ℚ) : calculateRenkoBricks [] s = [] := rfl

theorem calculateRenkoBricks_cons (d : FinancialDataPoint)
    (rest : List FinancialDataPoint) (s : ℚ) :
    calculateRenkoBricks (d :: rest) s =
      if s ≤ 0 then []
      else renkoLoop s (d :: rest) (((⌊d.close / s⌋ : ℤ) : ℚ) * s) 0
        d.high d.low := rfl

/-! ### The main loop invariant -/

/-- Invariant of the bar loop: starting from a reference price on the grid
`r0 + ℤ·size`, every emitted brick opens on the grid with a body spanning
exactly one `size` (up or down), has body bounds `[min, max]` of open/close
with wick bounds containing them, consecutive bricks chain close-to-open,
and the first emitted brick opens at the incoming reference price. -/
theorem renkoLoop_spec (size r0 : ℚ) :
    ∀ (l : List FinancialDataPoint) (ref : ℚ) (idx : ℕ) (pH pL : ℚ),
      (∃ k : ℤ, ref = r0 + k * size) →
      (∀ b ∈ renkoLoop size l ref idx pH pL,
        (∃ k : ℤ, b.«open» = r0 + k * size) ∧
        (b.close = b.«open» + size ∨ b.close = b.«open» - size) ∧
        b.bounds = (min b.«open» b.close, max b.«open» b.close) ∧
        b.wickBounds.1 ≤ b.bounds.1 ∧ b.bounds.2 ≤ b.wickBounds.2) ∧
      List.Chain' (fun a b => a.close = b.«open»)
        (renkoLoop size l ref idx pH pL) ∧
      (∀ b, (renkoLoop size l ref idx pH pL).head? = some b → b.«open» = ref) := by
  intro l
  induction l with
  | nil =>
    intro ref idx pH pL _
    exact ⟨by simp [renkoLoop], by simp [renkoLoop], by simp [renkoLoop]⟩
  | cons d rest ih =>
    intro ref idx pH pL hgrid
    obtain ⟨k0, hk0⟩ := hgrid
    have hbatch : ∀ (pHx pLx : ℚ) (hne : ¬(barBricks size d ref idx).1 = []),
        (∀ b ∈ assignWicks (barBricks size d ref idx).1 pHx pLx d.topoFundo,
          (∃ k : ℤ, b.«open» = r0 + k * size) ∧
          (b.close = b.«open» + size ∨ b.close = b.«open» - size) ∧
          b.bounds = (min b.«open» b.close, max b.«open» b.close) ∧
          b.wickBounds.1 ≤ b.bounds.1 ∧ b.bounds.2 ≤ b.wickBounds.2) ∧
        List.Chain' (fun a b => a.close = b.«open»)
          (assignWicks (barBricks size d ref idx).1 pHx pLx d.topoFundo) ∧
        (∀ b, (assignWicks (barBricks size d ref idx).1 pHx pLx d.topoFundo).head? =
          some b → b.«open» = ref) ∧
        (∀ b, (assignWicks (barBricks size d ref idx).1 pHx pLx d.topoFundo).getLast? =
          some b → b.close = (barBricks size d ref idx).2.1) ∧
        assignWicks (barBricks size d ref idx).1 pHx pLx d.topoFundo ≠ [] := by
      intro pHx pLx hne
      have hF := assignWicks_forall₂ (barBricks size d ref idx).1 pHx pLx d.topoFundo
      obtain ⟨hch, hhead, hlast, kb, hkb⟩ :=
        @barBricks_chain size d ref idx
      refine ⟨?_, ?_, ?_, ?_, ?_⟩
      · intro b hb
        obtain ⟨a, ha, hrel⟩ := forall₂_mem_right hF b hb
        obtain ⟨-, -, ho, hc, -, -, -, hbnd, -, -, -⟩ := hrel
        obtain ⟨hs, -, -, -, -, hcl, hbounds, -, ka, hka⟩ := barBricks_mem a ha
        refine ⟨⟨k0 + ka, by rw [← ho, hka, hk0]; push_cast; ring⟩, ?_, ?_, ?_⟩
        · rcases hcl with h | h
          · exact .inl (by rw [← ho, ← hc, h])
          · exact .inr (by rw [← ho, ← hc, h])
        · rw [← hbnd, ← ho, ← hc]
          exact hbounds
        · exact ⟨(assignWicks_containment _ pHx pLx d.topoFundo b hb).1,
            (assignWicks_containment _ pHx pLx d.topoFundo b hb).2⟩
      · refine forall₂_chain ?_ hF hch
        intro a b a' b' hS1 hS2 hr
        obtain ⟨-, -, -, hc1, -, -, -, -, -, -, -⟩ := hS1
        obtain ⟨-, -, ho2, -, -, -, -, -, -, -, -⟩ := hS2
        rw [← hc1, ← ho2]
        exact hr
      · intro b hb
        obtain ⟨a, ha, hrel⟩ := forall₂_head hF b hb
        obtain ⟨-, -, ho, -, -, -, -, -, -, -, -⟩ := hrel
        rw [← ho]
        exact hhead a ha
      · intro b hb
        obtain ⟨a, ha, hrel⟩ := forall₂_getLast hF b hb
        obtain ⟨-, -, -, hc, -, -, -, -, -, -, -⟩ := hrel
        rw [← hc]
        exact hlast a ha
      · intro habs
        have hlen := hF.length_eq
        rw [habs] at hlen
        simp at hlen
        exact hne hlen
    rcases rest with _ | ⟨e, rest2⟩
    · rw [renkoLoop_cons_nil]
      cases hE : (barBricks size d ref idx).1.isEmpty with
      | true =>
        rw [if_pos rfl, renkoLoop_nil]
        exact ⟨by simp, by simp, by simp⟩
      | false =>
        rw [if_neg Bool.false_ne_true]
        have hne : ¬(barBricks size d ref idx).1 = [] := by
          intro habs
          rw [habs] at hE
          simp at hE
        obtain ⟨hgood, hchain, hhead, -, -⟩ :=
          hbatch (if d.high > pH then d.high else pH)
            (if d.low < pL then d.low else pL) hne
        exact ⟨hgood, hchain, hhead⟩
    · rw [renkoLoop_cons_cons]
      cases hE : (barBricks size d ref idx).1.isEmpty with
      | true =>
        rw [if_pos rfl]
        have hnil : (barBricks size d ref idx).1 = [] := by
          rwa [List.isEmpty_iff] at hE
        obtain ⟨href, -⟩ := barBricks_state hnil
        have hih := ih (barBricks size d ref idx).2.1 (barBricks size d ref idx).2.2
          (if d.high > pH then d.high else pH) (if d.low < pL then d.low else pL)
          ⟨k0, by rw [href, hk0]⟩
        refine ⟨hih.1, hih.2.1, ?_⟩
        intro b hb
        rw [hih.2.2 b hb, href]
      | false =>
        rw [if_neg Bool.false_ne_true]
        have hne : ¬(barBricks size d ref idx).1 = [] := by
          intro habs
          rw [habs] at hE
          simp at hE
        obtain ⟨hgood, hchain, hhead, hlast, hnonempty⟩ :=
          hbatch (if d.high > pH then d.high else pH)
            (if d.low < pL then d.low else pL) hne
        obtain ⟨kb, hkb⟩ :=
          (@barBricks_chain size d ref idx).2.2.2
        obtain ⟨ihmem, ihchain, ihhead⟩ :=
          ih (barBricks size d ref idx).2.1 (barBricks size d ref idx).2.2
            e.high e.low ⟨k0 + kb, by rw [hkb, hk0]; push_cast; ring⟩
        refine ⟨?_, ?_, ?_⟩
        · intro b hb
          rcases List.mem_append.mp hb with hb | hb
          · exact hgood b hb
          · exact ihmem b hb
        · refine List.Chain'.append hchain ihchain ?_
          intro x hx y hy
          rw [hlast x hx, ihhead y hy]
        · intro b hb
          rw [List.head?_append] at hb
          rcases ha : (assignWicks (barBricks size d ref idx).1
              (if d.high > pH then d.high else pH)
              (if d.low < pL then d.low else pL) d.topoFundo).head? with _ | x
          · rcases hassigned : assignWicks (barBricks size d ref idx).1
                (if d.high > pH then d.high else pH)
                (if d.low < pL then d.low else pL) d.topoFundo with _ | ⟨z, zs⟩
            · exact absurd hassigned hnonempty
            · rw [hassigned] at ha
              simp at ha
          · rw [ha] at hb
            simp only [Option.or_some, Option.some.injEq] at hb
            subst hb
            exact hhead x ha

/-! ### Claim theorems for the resampler -/

/-- C5: the resampler returns an empty sequence (raising no error) for an
empty bar list — regardless of the step size — and for any non-positive
step size. -/
theorem C5_degenerate_inputs :
    (∀ s : ℚ, calculateRenkoBricks [] s = []) ∧
      (∀ (data : List FinancialDataPoint) (s : ℚ), s ≤ 0 →
        calculateRenkoBricks data s = []) := by
  constructor
  · intro s
    rfl
  · intro data s hs
    cases data with
    | nil => rfl
    | cons d rest => rw [calculateRenkoBricks_cons, if_pos hs]

/-- Witness for C5 at a concrete non-positive step size and a concrete bar. -/
theorem C5_degenerate_inputs_witness :
    calculateRenkoBricks [] (25 : ℚ) = [] ∧ (0 : ℚ) ≤ 0 ∧
      calculateRenkoBricks [⟨"a", 0, 100, 100, 100, 0, none, none, none⟩] 0 = [] :=
  ⟨C5_degenerate_inputs.1 25, le_refl 0,
    C5_degenerate_inputs.2 [⟨"a", 0, 100, 100, 100, 0, none, none, none⟩] 0 (le_refl 0)⟩

/-- C4: for a non-empty bar list and positive step size, every emitted brick
opens on the absolute grid anchored at `floor(close₀ / stepSize) * stepSize`
with a body spanning exactly one step, and each brick's close equals the
next brick's open. -/
theorem C4_grid_invariant (d : FinancialDataPoint) (rest : List FinancialDataPoint)
    (s : ℚ) (hs : 0 < s) :
    (∀ b ∈ calculateRenkoBricks (d :: rest) s,
      ∃ k : ℤ, b.«open» = ((⌊d.close / s⌋ : ℤ) : ℚ) * s + k * s ∧
        (b.close = b.«open» + s ∨ b.close = b.«open» - s)) ∧
      List.Chain' (fun a b => a.close = b.«open»)
        (calculateRenkoBricks (d :: rest) s) := by
  rw [calculateRenkoBricks_cons, if_neg (not_le.mpr hs)]
  obtain ⟨hmem, hchain, -⟩ :=
    renkoLoop_spec s (((⌊d.close / s⌋ : ℤ) : ℚ) * s) (d :: rest)
      (((⌊d.close / s⌋ : ℤ) : ℚ) * s) 0 d.high d.low ⟨0, by ring⟩
  refine ⟨?_, hchain⟩
  intro b hb
  obtain ⟨⟨k, hk⟩, hcl, -, -⟩ := hmem b hb
  exact ⟨k, hk, hcl⟩

/-- Witness for C4 on the spec's Example 1 data (first close 100, step 25). -/
theorem C4_grid_invariant_witness :
    (0 : ℚ) < 25 ∧
      ((∀ b ∈ calculateRenkoBricks
          [⟨"a", 0, 100, 100, 100, 0, none, none, none⟩,
           ⟨"b", 0, 126, 100, 126, 0, none, none, none⟩] 25,
        ∃ k : ℤ, b.«open» =
            ((⌊(FinancialDataPoint.close ⟨"a", 0, 100, 100, 100, 0, none, none, none⟩) / 25⌋ : ℤ) : ℚ) * 25 +
              k * 25 ∧
          (b.close = b.«open» + 25 ∨ b.close = b.«open» - 25)) ∧
      List.Chain' (fun a b => a.close = b.«open»)
        (calculateRenkoBricks
          [⟨"a", 0, 100, 100, 100, 0, none, none, none⟩,
           ⟨"b", 0, 126, 100, 126, 0, none, none, none⟩] 25)) :=
  ⟨by norm_num,
    C4_grid_invariant ⟨"a", 0, 100, 100, 100, 0, none, none, none⟩
      [⟨"b", 0, 126, 100, 126, 0, none, none, none⟩] 25 (by norm_num)⟩

/-- C9: every brick of the resampler's output has body bounds exactly
`[min(open, close), max(open, close)]` and wick bounds containing them. -/
theorem C9_wick_containment (data : List FinancialDataPoint) (s : ℚ) :
    List.Forall (fun b =>
        b.bounds = (min b.«open» b.close, max b.«open» b.close) ∧
        b.wickBounds.1 ≤ b.bounds.1 ∧ b.bounds.2 ≤ b.wickBounds.2)
      (calculateRenkoBricks data s) := by
  rw [List.forall_iff_forall_mem]
  intro b hb
  cases data with
  | nil =>
    rw [calculateRenkoBricks_nil] at hb
    simp at hb
  | cons d rest =>
    rw [calculateRenkoBricks_cons] at hb
    by_cases hs : s ≤ 0
    · rw [if_pos hs] at hb
      simp at hb
    · rw [if_neg hs] at hb
      obtain ⟨hmem, -, -⟩ :=
        renkoLoop_spec s (((⌊d.close / s⌋ : ℤ) : ℚ) * s) (d :: rest)
          (((⌊d.close / s⌋ : ℤ) : ℚ) * s) 0 d.high d.low ⟨0, by ring⟩
      obtain ⟨-, -, hbnd, hw1, hw2⟩ := hmem b hb
      exact ⟨hbnd, hw1, hw2⟩

/-- C8: processing a single bar emits bricks in one direction only — the up
run and the down run are mutually exclusive, so the whole per-bar batch is
all-up or all-down. -/
theorem C8_single_direction (size : ℚ) (d : FinancialDataPoint) (ref : ℚ)
    (idx : ℕ) :
    ((emitUp d.close size d.date d.mm72 d.jma d.topoFundo ref idx).1 = [] ∨
      (emitDown d.close size d.date d.mm72 d.jma d.topoFundo
        (emitUp d.close size d.date d.mm72 d.jma d.topoFundo ref idx).2.1
        (emitUp d.close size d.date d.mm72 d.jma d.topoFundo ref idx).2.2).1 = []) ∧
      (List.Forall (fun b => b.type = BrickType.up) (barBricks size d ref idx).1 ∨
        List.Forall (fun b => b.type = BrickType.down) (barBricks size d ref idx).1) := by
  have hexcl : (emitUp d.close size d.date d.mm72 d.jma d.topoFundo ref idx).1 = [] ∨
      (emitDown d.close size d.date d.mm72 d.jma d.topoFundo
        (emitUp d.close size d.date d.mm72 d.jma d.topoFundo ref idx).2.1
        (emitUp d.close size d.date d.mm72 d.jma d.topoFundo ref idx).2.2).1 = [] := by
    by_cases hu : (emitUp d.close size d.date d.mm72 d.jma d.topoFundo ref idx).1 = []
    · exact .inl hu
    · right
      obtain ⟨hs, hle⟩ :=
        (emitUp_last d.close size d.date d.mm72 d.jma d.topoFundo ref idx).2.1 hu
      rw [emitDown_neg ?_]
      rintro ⟨-, h2⟩
      have : (emitUp d.close size d.date d.mm72 d.jma d.topoFundo ref idx).2.1 ≤
          (emitUp d.close size d.date d.mm72 d.jma d.topoFundo ref idx).2.1 - size := le_trans hle h2
      linarith
  refine ⟨hexcl, ?_⟩
  rcases hexcl with hu | hd
  · right
    rw [List.forall_iff_forall_mem]
    intro b hb
    unfold barBricks at hb
    dsimp only at hb
    rw [hu, List.nil_append] at hb
    exact (emitDown_mem d.close size d.date d.mm72 d.jma d.topoFundo _ _ b hb).2.1
  · left
    rw [List.forall_iff_forall_mem]
    intro b hb
    unfold barBricks at hb
    dsimp only at hb
    rw [hd, List.append_nil] at hb
    exact (emitUp_mem d.close size d.date d.mm72 d.jma d.topoFundo ref idx b hb).2.1

/-- Pointwise agreement of two bars on every field the resampler reads
(everything except `open` and `volume`). -/
def agreeExceptOpenVolume (a b : FinancialDataPoint) : Prop :=
  a.date = b.date ∧ a.high = b.high ∧ a.low = b.low ∧ a.close = b.close ∧
  a.mm72 = b.mm72 ∧ a.jma = b.jma ∧ a.topoFundo = b.topoFundo

theorem renkoLoop_congr (s : ℚ) :
    ∀ {l1 l2 : List FinancialDataPoint},
      List.Forall₂ agreeExceptOpenVolume l1 l2 →
      ∀ (ref : ℚ) (idx : ℕ) (pH pL : ℚ),
        renkoLoop s l1 ref idx pH pL = renkoLoop s l2 ref idx pH pL := by
  intro l1 l2 h
  induction h with
  | nil => intro ref idx pH pL; rfl
  | @cons d e t1 t2 hde htail ih =>
    intro ref idx pH pL
    obtain ⟨hdate, hhigh, hlow, hclose, hmm, hjma, htf⟩ := hde
    have hbb : barBricks s d ref idx = barBricks s e ref idx := by
      unfold barBricks
      rw [hdate, hclose, hmm, hjma, htf]
    cases htail with
    | nil =>
      rw [renkoLoop_cons_nil, renkoLoop_cons_nil, hbb, hhigh, hlow, htf]
    | @cons x y xs ys hxy htail2 =>
      obtain ⟨-, hxh, hxl, -, -, -, -⟩ := hxy
      rw [renkoLoop_cons_cons, renkoLoop_cons_cons, hbb, hhigh, hlow, htf, ih,
        hxh, hxl, ih]

/-- C10: the resampler's output never depends on a bar's `open` price or
`volume`: bar lists agreeing pointwise on all other fields produce identical
brick lists. -/
theorem C10_open_volume_irrelevant (d1 d2 : List FinancialDataPoint) (s : ℚ)
    (h : List.Forall₂ agreeExceptOpenVolume d1 d2) :
    calculateRenkoBricks d1 s = calculateRenkoBricks d2 s := by
  cases h with
  | nil => rfl
  | @cons d e t1 t2 hde htail =>
    obtain ⟨hdate, hhigh, hlow, hclose, hmm, hjma, htf⟩ := hde
    rw [calculateRenkoBricks_cons, calculateRenkoBricks_cons]
    by_cases hs : s ≤ 0
    · rw [if_pos hs, if_pos hs]
    · rw [if_neg hs, if_neg hs, hclose, hhigh, hlow]
      exact renkoLoop_congr s (.cons ⟨hdate, hhigh, hlow, hclose, hmm, hjma, htf⟩ htail) _ _ _ _

/-- Witness for C10: two one-bar lists differing only in `open` and
`volume`. -/
theorem C10_open_volume_irrelevant_witness :
    calculateRenkoBricks [⟨"a", 1, 110, 90, 100, 5, none, none, none⟩] 25 =
      calculateRenkoBricks [⟨"a", 2, 110, 90, 100, 7, none, none, none⟩] 25 :=
  C10_open_volume_irrelevant _ _ 25 (.cons ⟨rfl, rfl, rfl, rfl, rfl, rfl, rfl⟩ .nil)

/-- C2 amended: the bar's `extremaMarker` (`topoFundo`) is propagated to
EVERY brick of the batch generated from that bar — the later anchored
reassignment (which targets the highest-body brick only when the marker is
strictly nearer the period high, ties going to the low-side brick) never
changes the batch, since each brick is created already carrying the
marker. -/
theorem C2_amended (size : ℚ) (d : FinancialDataPoint) (ref : ℚ) (idx : ℕ)
    (pH pL : ℚ) :
    List.Forall (fun b => b.topoFundo = d.topoFundo)
      (assignWicks (barBricks size d ref idx).1 pH pL d.topoFundo) := by
  rw [List.forall_iff_forall_mem]
  intro b hb
  obtain ⟨a, ha, hrel⟩ :=
    forall₂_mem_right (assignWicks_forall₂ (barBricks size d ref idx).1 pH pL
      d.topoFundo) b hb
  obtain ⟨-, -, -, -, -, -, -, -, -, -, htopo⟩ := hrel
  have hat : a.topoFundo = d.topoFundo := (barBricks_mem a ha).2.1
  rcases htopo with h | h
  · rw [h, hat]
  · rw [h]

/-- C2 counterexample: a marker-bearing bar (close 150, `topoFundo` 150)
emits a batch of two bricks, and BOTH bricks of the batch carry the marker
in the output (the anchored reassignment is a no-op because every brick is
created already holding the bar's marker) — not just one of them. -/
theorem C2_counterexample :
    calculateRenkoBricks
        [⟨"a", 0, 100, 100, 100, 0, none, none, none⟩,
         ⟨"b", 0, 150, 100, 150, 0, none, none, some 150⟩] 25 =
      [⟨0, "b", 100, 125, 125, 100, .up, (100, 125), (100, 125), none, none,
        some 150⟩,
       ⟨1, "b", 125, 150, 150, 125, .up, (125, 150), (125, 150), none, none,
        some 150⟩] := by
  rw [calculateRenkoBricks_cons, if_neg (by norm_num)]
  norm_num [renkoLoop_cons_cons, renkoLoop_cons_nil, renkoLoop_nil, barBricks,
    emitUp_pos, emitUp_neg, emitDown_pos, emitDown_neg, assignWicks,
    scanExtremes, enumFrom, scanStep, modifyAt]

end Remora
